import Mathlib

/-!
Verification of the allocation engine of `src/randomizations.py`
(`class Randomizations`): simple, block, stratified, covariate-adaptive,
permuted-block, cluster randomization and minimization, together with the
coverage, balance, determinism and side-effect properties stated for them.

The embedding translates each Python method into a pure Lean function.
The process-wide random source (`random` / `np.random`) is modeled as an
explicitly threaded generator state, as the design describes it: an injected
seedable generator whose draws are deterministic functions of its state.
Dictionaries are modeled as association lists in insertion order (Python
dictionaries preserve insertion order and the engine builds every dictionary
by iterating over declared group order).  Fallible calls (`KeyError`,
`ValueError`) are modeled with `Option`: `none` is an exception escaping the
method before any result is produced.
-/

namespace Causality

/-- Model of the injected seedable random source (`random` / `np.random`):
a deterministic generator with a natural-number state, advanced by a linear
congruential step.  Every draw is a pure function of the state. -/
structure RNG where
  state : Nat

/-- Advance the generator one step and produce a raw draw. -/
def RNG.next (g : RNG) : Nat × RNG :=
  let s := (g.state * 1103515245 + 12345) % 2147483648
  (s, ⟨s⟩)

/-- One bounded draw: an index below `n` (`0 < n`). -/
def RNG.randFin (g : RNG) (n : Nat) (h : 0 < n) : Fin n × RNG :=
  let p := g.next
  (⟨p.1 % n, Nat.mod_lt _ h⟩, p.2)

/-- `set_random_seed(seed)`: `random.seed(seed)` and `np.random.seed(seed)`
reset the process-wide generator state to a function of the seed. -/
def set_random_seed (seed : Nat) : RNG := ⟨seed⟩

/-- Fisher-Yates style shuffle driven by the generator: repeatedly draw a
position of the remaining list and move that element to the output.  The fuel
argument is the list length, making the recursion structural.  This models
`random.shuffle`: the output is a generator-determined permutation of the
input, and the generator is advanced. -/
def shuffleAux {α : Type} : Nat → RNG → List α → List α × RNG
  | 0, g, l => (l, g)
  | _ + 1, g, [] => ([], g)
  | fuel + 1, g, x :: xs =>
    let p := RNG.randFin g (x :: xs).length (Nat.succ_pos _)
    let y := (x :: xs).get p.1
    let rest := (x :: xs).eraseIdx p.1.val
    let q := shuffleAux fuel p.2 rest
    (y :: q.1, q.2)

/-- `random.shuffle(l)`: shuffle the whole list. -/
def shuffle {α : Type} (g : RNG) (l : List α) : List α × RNG :=
  shuffleAux l.length g l

/-- Python slice `l[0::step]` for `step ≥ 1`: every `step`-th element starting
at the head.  Fuel-based so that the recursion is structural; `strideSlice`
instantiates the fuel with the list length. -/
def strideAux {α : Type} (step : Nat) : Nat → List α → List α
  | _, [] => []
  | 0, _ :: _ => []
  | fuel + 1, x :: xs => x :: strideAux step fuel (xs.drop (step - 1))

/-- Python slice `l[0::step]` for `step ≥ 1`. -/
def strideSlice {α : Type} (step : Nat) (l : List α) : List α :=
  strideAux step l.length l

/-- Python `[l[i:i+n] for i in range(0, len(l), n)]` for `n ≥ 1`: consecutive
blocks of size `n`, the last block possibly shorter. -/
def chunksAux {α : Type} (n : Nat) : Nat → List α → List (List α)
  | _, [] => []
  | 0, _ :: _ => []
  | fuel + 1, x :: xs => (x :: xs).take n :: chunksAux n fuel ((x :: xs).drop n)

/-- Consecutive blocks of size `n` (`n ≥ 1`), last block possibly shorter. -/
def chunks {α : Type} (n : Nat) (l : List α) : List (List α) :=
  chunksAux n l.length l

/-- The round-robin dealing dictionary comprehension
`{group: lst[i::len(groups)] for i, group in enumerate(groups)}`:
group number `i` receives the slice starting at offset `i` with stride equal
to the number of groups. -/
def dealAux {α γ : Type} (G : Nat) (l : List α) : List γ → Nat → List (γ × List α)
  | [], _ => []
  | g :: gs, i => (g, strideSlice G (l.drop i)) :: dealAux G l gs (i + 1)

/-- Deal a list round-robin into the groups, in declared group order. -/
def dealRound {α γ : Type} (gs : List γ) (l : List α) : List (γ × List α) :=
  dealAux gs.length l gs 0

/-- Dictionary lookup `d[k]` on an association list whose keys are the keys of
a Python dictionary (hence unique); returns the first binding of `k`. -/
def lookupD {α κ : Type} [DecidableEq κ] (k : κ) : List (κ × List α) → List α
  | [] => []
  | (k', v) :: rest => if k' = k then v else lookupD k rest

/-- `d[g].extend(ms)` (and `d[g].append(p)` with `ms = [p]`): extend the
sequence stored at key `g` in place. -/
def extendGroup {α γ : Type} [DecidableEq γ] (g : γ) (ms : List α) :
    List (γ × List α) → List (γ × List α)
  | [] => []
  | (g', l) :: rest =>
    if g' = g then (g', l ++ ms) :: rest else (g', l) :: extendGroup g ms rest

/-- The multiset union of an allocation: all assigned participants, read off
in group order. -/
def allocJoin {α γ : Type} (a : List (γ × List α)) : List α :=
  (a.map Prod.snd).flatten

/-- The engine state built by `Randomizations.__init__`: the stored participant
list, the stored group list, and the threaded state of the random source
(seeded at construction when a seed is given). -/
structure Randomizations (α γ : Type) where
  participants : List α
  groups : List γ
  gen : RNG

/-- `simple_randomization()`: shuffle the stored participant list in place,
then deal it round-robin into the groups.  Returns the allocation and the
updated engine state (shuffled stored list, advanced generator). -/
def simple_randomization {α γ : Type} (st : Randomizations α γ) :
    List (γ × List α) × Randomizations α γ :=
  let p := shuffle st.gen st.participants
  (dealRound st.groups p.1, { st with participants := p.1, gen := p.2 })

/-- Shuffle each block in order, threading the generator: the loop
`for block in blocks: random.shuffle(block)` over freshly sliced blocks. -/
def shuffleEach {α : Type} (g : RNG) : List (List α) → List (List α) × RNG
  | [] => ([], g)
  | b :: bs =>
    let p := shuffle g b
    let q := shuffleEach p.2 bs
    (p.1 :: q.1, q.2)

/-- `block_randomization(block_size)`: slice the stored participants into
consecutive blocks of `block_size` (`range(0, n, block_size)` raises
`ValueError` for step `0`, modeled as `none`, and is empty for negative
steps), shuffle each block (a copy — the stored list is untouched),
concatenate in block order, and deal round-robin into the groups. -/
def block_randomization {α γ : Type} (block_size : Int) (st : Randomizations α γ) :
    Option (List (γ × List α)) × Randomizations α γ :=
  if block_size = 0 then (none, st)
  else if block_size < 0 then (some (dealRound st.groups ([] : List α)), st)
  else
    let p := shuffleEach st.gen (chunks block_size.toNat st.participants)
    (some (dealRound st.groups p.1.flatten), { st with gen := p.2 })

/-- The loop body of `stratified_randomization`: for each stratum in order,
shuffle its member list in place (the caller's list object), deal it
round-robin, and extend the accumulated per-group sequences.  Returns the
accumulated allocation, the post-call strata (each member list replaced by its
shuffled contents, as the caller observes it), and the advanced generator. -/
def stratifiedAux {α γ σ : Type} [DecidableEq γ] (gs : List γ) :
    RNG → List (σ × List α) → List (γ × List α) →
    List (γ × List α) × List (σ × List α) × RNG
  | g, [], acc => (acc, [], g)
  | g, (s, members) :: rest, acc =>
    let p := shuffle g members
    let alloc := dealRound gs p.1
    let acc' := alloc.foldl (fun a e => extendGroup e.1 e.2 a) acc
    let q := stratifiedAux gs p.2 rest acc'
    (q.1, (s, p.1) :: q.2.1, q.2.2)

/-- `stratified_randomization(strata)`: initialize every group with an empty
sequence, then process each stratum as in `stratifiedAux`.  The second
component is the strata mapping as the caller sees it after the call. -/
def stratified_randomization {α γ σ : Type} [DecidableEq γ]
    (strata : List (σ × List α)) (st : Randomizations α γ) :
    List (γ × List α) × List (σ × List α) × Randomizations α γ :=
  let r := stratifiedAux st.groups st.gen strata (st.groups.map (fun g => (g, ([] : List α))))
  (r.1, r.2.1, { st with gen := r.2.2 })

/-- `np.sum([covariates[p] == covariate_values for p in assigned])`:
count the assigned participants whose covariate value equals `cv`; a missing
covariate entry raises `KeyError` (`none`). -/
def countMatches {α β : Type} [DecidableEq β] (cov : α → Option β) (cv : β) :
    List α → Option Nat
  | [] => some 0
  | a :: as =>
    match cov a, countMatches cov cv as with
    | some v, some n => some ((if v = cv then 1 else 0) + n)
    | _, _ => none

/-- The dictionary comprehension building `imbalance_scores`: one score per
group, in declared group order. -/
def imbalance_scores {α β γ : Type} [DecidableEq β] [DecidableEq γ]
    (cov : α → Option β) (cv : β) (acc : List (γ × List α)) :
    List γ → Option (List (γ × Nat))
  | [] => some []
  | g :: gs =>
    match countMatches cov cv (lookupD g acc), imbalance_scores cov cv acc gs with
    | some n, some rest => some ((g, n) :: rest)
    | _, _ => none

/-- Python `min(imbalance_scores, key=imbalance_scores.get)`: fold over the
scored groups in order, replacing the current best only on a strictly smaller
score, so the first key attaining the minimum wins. -/
def minByScore {γ : Type} (best : γ × Nat) : List (γ × Nat) → γ × Nat
  | [] => best
  | c :: cs => minByScore (if c.2 < best.2 then c else best) cs

/-- One iteration of the `minimization` loop: look up the participant's
covariate value, compute the per-group imbalance scores, pick the minimizing
group (`min` of an empty dictionary raises, modeled as `none`), and append the
participant to that group's sequence. -/
def minimizationStep {α β γ : Type} [DecidableEq β] [DecidableEq γ]
    (gs : List γ) (cov : α → Option β) (acc : List (γ × List α)) (p : α) :
    Option (List (γ × List α)) :=
  match cov p with
  | none => none
  | some cv =>
    match imbalance_scores cov cv acc gs with
    | none => none
    | some scored =>
      match scored with
      | [] => none
      | s0 :: srest => some (extendGroup (minByScore s0 srest).1 [p] acc)

/-- The `for participant in self.participants` loop of `minimization`. -/
def minimizationAux {α β γ : Type} [DecidableEq β] [DecidableEq γ]
    (gs : List γ) (cov : α → Option β) :
    List (γ × List α) → List α → Option (List (γ × List α))
  | acc, [] => some acc
  | acc, p :: ps =>
    match minimizationStep gs cov acc p with
    | none => none
    | some acc' => minimizationAux gs cov acc' ps

/-- `minimization(covariates)`: greedy covariate balancing over the stored
participants, processed in stored order, starting from empty groups. -/
def minimization {α β γ : Type} [DecidableEq β] [DecidableEq γ]
    (gs : List γ) (cov : α → Option β) (ps : List α) :
    Option (List (γ × List α)) :=
  minimizationAux gs cov (gs.map (fun g => (g, ([] : List α)))) ps

/-- One iteration of the `covariate_adaptive_randomization` loop — the method
body is line-for-line the body of `minimization`. -/
def covariateStep {α β γ : Type} [DecidableEq β] [DecidableEq γ]
    (gs : List γ) (cov : α → Option β) (acc : List (γ × List α)) (p : α) :
    Option (List (γ × List α)) :=
  match cov p with
  | none => none
  | some cv =>
    match imbalance_scores cov cv acc gs with
    | none => none
    | some scored =>
      match scored with
      | [] => none
      | s0 :: srest => some (extendGroup (minByScore s0 srest).1 [p] acc)

/-- The participant loop of `covariate_adaptive_randomization`. -/
def covariateAux {α β γ : Type} [DecidableEq β] [DecidableEq γ]
    (gs : List γ) (cov : α → Option β) :
    List (γ × List α) → List α → Option (List (γ × List α))
  | acc, [] => some acc
  | acc, p :: ps =>
    match covariateStep gs cov acc p with
    | none => none
    | some acc' => covariateAux gs cov acc' ps

/-- `covariate_adaptive_randomization(covariates)`: textually the same
algorithm as `minimization` (the only difference in the source is a redundant
`dict(...)` around the initial comprehension). -/
def covariate_adaptive_randomization {α β γ : Type} [DecidableEq β] [DecidableEq γ]
    (gs : List γ) (cov : α → Option β) (ps : List α) :
    Option (List (γ × List α)) :=
  covariateAux gs cov (gs.map (fun g => (g, ([] : List α)))) ps

/-- The first loop of `permuted_block_randomization`: for each size in order,
extend the block list with a full consecutive partition of the stored
participants by that size.  A zero size raises `ValueError` (`none`) before
any shuffling; a negative size contributes an empty range of blocks. -/
def buildBlocks {α : Type} (ps : List α) : List Int → Option (List (List α))
  | [] => some []
  | s :: rest =>
    if s = 0 then none
    else
      match buildBlocks ps rest with
      | none => none
      | some bs => some ((if s < 0 then [] else chunks s.toNat ps) ++ bs)

/-- `permuted_block_randomization(block_sizes)`: accumulate one full partition
of the stored participants per size, shuffle every block (copies — the stored
list is untouched), concatenate, and deal round-robin into the groups. -/
def permuted_block_randomization {α γ : Type} (block_sizes : List Int)
    (st : Randomizations α γ) :
    Option (List (γ × List α)) × Randomizations α γ :=
  match buildBlocks st.participants block_sizes with
  | none => (none, st)
  | some blocks =>
    let p := shuffleEach st.gen blocks
    (some (dealRound st.groups p.1.flatten), { st with gen := p.2 })

/-- `cluster_randomization(clusters)`: shuffle the (fresh) list of cluster
names, deal the names round-robin into the groups, then expand every assigned
cluster into its members, preserving cluster-internal order and assignment
order. -/
def cluster_randomization {α γ κ : Type} [DecidableEq κ]
    (clusters : List (κ × List α)) (st : Randomizations α γ) :
    List (γ × List α) × Randomizations α γ :=
  let p := shuffle st.gen (clusters.map Prod.fst)
  let clusterAlloc := dealRound st.groups p.1
  (clusterAlloc.map (fun e => (e.1, (e.2.map (fun k => lookupD k clusters)).flatten)),
   { st with gen := p.2 })

/-- The strategy methods of the `Randomizations` class. -/
inductive Method where
  | simple
  | block
  | stratified
  | covariateAdaptive
  | permutedBlock
  | cluster
  | minimization
deriving DecidableEq

/-- One bundle of strategy parameters, covering every method's arguments. -/
structure Params (α β γ σ κ : Type) where
  block_size : Int
  block_sizes : List Int
  strata : List (σ × List α)
  clusters : List (κ × List α)
  covariates : α → Option β

/-- Dispatch one strategy call on the engine state, returning the produced
allocation (`none` for a raised exception) and the engine state after the
call. -/
def runMethod {α β γ σ κ : Type} [DecidableEq β] [DecidableEq γ] [DecidableEq κ]
    (m : Method) (prm : Params α β γ σ κ) (st : Randomizations α γ) :
    Option (List (γ × List α)) × Randomizations α γ :=
  match m with
  | .simple => let r := simple_randomization st; (some r.1, r.2)
  | .block => block_randomization prm.block_size st
  | .stratified => let r := stratified_randomization prm.strata st; (some r.1, r.2.2)
  | .covariateAdaptive =>
    (covariate_adaptive_randomization st.groups prm.covariates st.participants, st)
  | .permutedBlock => permuted_block_randomization prm.block_sizes st
  | .cluster => let r := cluster_randomization prm.clusters st; (some r.1, r.2)
  | .minimization => (minimization st.groups prm.covariates st.participants, st)

/-- Run a sequence of strategy calls on one engine, threading the engine state
(stored participant order and generator state) through the calls, and collect
the produced allocations. -/
def runCalls {α β γ σ κ : Type} [DecidableEq β] [DecidableEq γ] [DecidableEq κ]
    (st : Randomizations α γ) :
    List (Method × Params α β γ σ κ) → List (Option (List (γ × List α)))
  | [] => []
  | c :: cs =>
    let r := runMethod c.1 c.2 st
    r.1 :: runCalls r.2 cs

/-- Minimum score value of a scored list with head `b` and tail `l`. -/
def minScoreVal {γ : Type} (b : γ × Nat) (l : List (γ × Nat)) : Nat :=
  l.foldl (fun m c => Nat.min m c.2) b.2

/-- The selection rule in the spec's words (design section 4.1): "Assign the
participant to the group with the minimum score; ties broken by the group's
position in the declared group order (first encountered minimum wins, i.e.,
stable argmin)" — the first scored group whose score equals the minimum. -/
def specChoose {γ : Type} (b : γ × Nat) (l : List (γ × Nat)) : Option (γ × Nat) :=
  (b :: l).find? (fun c => c.2 == minScoreVal b l)

/-- One step of the minimization loop as the spec words it: same scores, but
the assigned group is picked by `specChoose`. -/
def specMinimizationStep {α β γ : Type} [DecidableEq β] [DecidableEq γ]
    (gs : List γ) (cov : α → Option β) (acc : List (γ × List α)) (p : α) :
    Option (List (γ × List α)) :=
  match cov p with
  | none => none
  | some cv =>
    match imbalance_scores cov cv acc gs with
    | none => none
    | some scored =>
      match scored with
      | [] => none
      | s0 :: srest =>
        match specChoose s0 srest with
        | none => none
        | some c => some (extendGroup c.1 [p] acc)

/-- The participant loop of the spec-worded minimization. -/
def specMinimizationAux {α β γ : Type} [DecidableEq β] [DecidableEq γ]
    (gs : List γ) (cov : α → Option β) :
    List (γ × List α) → List α → Option (List (γ × List α))
  | acc, [] => some acc
  | acc, p :: ps =>
    match specMinimizationStep gs cov acc p with
    | none => none
    | some acc' => specMinimizationAux gs cov acc' ps

/-- Minimization as described by the spec's words: participants one at a time
in stored order, scores per group, first minimal group wins. -/
def specMinimization {α β γ : Type} [DecidableEq β] [DecidableEq γ]
    (gs : List γ) (cov : α → Option β) (ps : List α) :
    Option (List (γ × List α)) :=
  specMinimizationAux gs cov (gs.map (fun g => (g, ([] : List α)))) ps


/-! ## Basic lemmas about the randomness and slicing primitives -/

/-- Moving the element at index `j` to the front is a permutation. -/
theorem get_cons_eraseIdx_perm {α : Type} (l : List α) (j : Fin l.length) :
    (l.get j :: l.eraseIdx j.val).Perm l := by
  rw [List.eraseIdx_eq_take_drop_succ, List.get_eq_getElem]
  conv_rhs => rw [← List.take_append_drop j.val l, List.drop_eq_getElem_cons j.isLt]
  exact List.perm_middle.symm

/-- The shuffled list is a permutation of the input, for sufficient fuel. -/
theorem shuffleAux_perm {α : Type} (fuel : Nat) :
    ∀ (g : RNG) (l : List α), l.length ≤ fuel → ((shuffleAux fuel g l).1).Perm l := by
  induction fuel with
  | zero =>
    intro g l h
    have hl : l = [] := List.length_eq_zero.mp (Nat.le_zero.mp h)
    subst hl
    exact List.Perm.refl _
  | succ fuel ih =>
    intro g l h
    match l with
    | [] => exact List.Perm.refl _
    | x :: xs =>
      have hlen :
          ((x :: xs).eraseIdx ((RNG.randFin g (x :: xs).length (Nat.succ_pos _)).1).val).length ≤ fuel := by
        rw [List.length_eraseIdx_of_lt (Fin.isLt _)]
        simpa using Nat.le_of_succ_le_succ h
      exact List.Perm.trans
        (List.Perm.cons _ (ih _ _ hlen))
        (get_cons_eraseIdx_perm (x :: xs) _)

/-- `random.shuffle` returns a permutation of its input. -/
theorem shuffle_perm {α : Type} (g : RNG) (l : List α) :
    ((shuffle g l).1).Perm l :=
  shuffleAux_perm l.length g l (Nat.le_refl _)

theorem shuffle_length {α : Type} (g : RNG) (l : List α) :
    (shuffle g l).1.length = l.length :=
  (shuffle_perm g l).length_eq

/-- The fuel of `strideAux` is irrelevant once it covers the list length. -/
theorem strideAux_congr {α : Type} (step : Nat) :
    ∀ (f1 : Nat) (f2 : Nat) (l : List α), l.length ≤ f1 → l.length ≤ f2 →
      strideAux step f1 l = strideAux step f2 l := by
  intro f1
  induction f1 with
  | zero =>
    intro f2 l h1 _
    have hl : l = [] := List.length_eq_zero.mp (Nat.le_zero.mp h1)
    subst hl
    cases f2 <;> rfl
  | succ f1 ih =>
    intro f2 l h1 h2
    match l with
    | [] => cases f2 <;> rfl
    | x :: xs =>
      match f2, h2 with
      | f2 + 1, h2 =>
        show x :: strideAux step f1 (xs.drop (step - 1)) =
          x :: strideAux step f2 (xs.drop (step - 1))
        have hd : (xs.drop (step - 1)).length ≤ xs.length := by
          rw [List.length_drop]; exact Nat.sub_le _ _
        exact congrArg _ (ih f2 _
          (Nat.le_trans hd (Nat.le_of_succ_le_succ h1))
          (Nat.le_trans hd (Nat.le_of_succ_le_succ h2)))

@[simp] theorem strideSlice_nil {α : Type} (step : Nat) :
    strideSlice step ([] : List α) = [] := rfl

theorem strideSlice_cons {α : Type} (step : Nat) (x : α) (xs : List α) :
    strideSlice step (x :: xs) = x :: strideSlice step (xs.drop (step - 1)) := by
  show x :: strideAux step xs.length (xs.drop (step - 1)) =
    x :: strideAux step (xs.drop (step - 1)).length (xs.drop (step - 1))
  have hd : (xs.drop (step - 1)).length ≤ xs.length := by
    rw [List.length_drop]; exact Nat.sub_le _ _
  exact congrArg _ (strideAux_congr step _ _ _ hd (Nat.le_refl _))

/-- Flattening the consecutive blocks gives back the list. -/
theorem chunksAux_flatten {α : Type} (n : Nat) (hn : 1 ≤ n) :
    ∀ (fuel : Nat) (l : List α), l.length ≤ fuel →
      (chunksAux n fuel l).flatten = l := by
  intro fuel
  induction fuel with
  | zero =>
    intro l h
    have hl : l = [] := List.length_eq_zero.mp (Nat.le_zero.mp h)
    subst hl
    rfl
  | succ fuel ih =>
    intro l h
    match l with
    | [] => rfl
    | x :: xs =>
      show ((x :: xs).take n ++ (chunksAux n fuel ((x :: xs).drop n)).flatten) = x :: xs
      have hd : ((x :: xs).drop n).length ≤ fuel := by
        rw [List.length_drop]
        simp only [List.length_cons] at h ⊢
        omega
      rw [ih _ hd, List.take_append_drop]

theorem chunks_flatten {α : Type} (n : Nat) (hn : 1 ≤ n) (l : List α) :
    (chunks n l).flatten = l :=
  chunksAux_flatten n hn l.length l (Nat.le_refl _)


/-! ## Round-robin dealing: coverage and sizes -/

/-- Decomposition of a strided slice at offset `i`: its head is the element at
index `i` (when present) and its tail is the same slice of the list with the
first `G` elements removed. -/
theorem strideSlice_drop_decomp {α : Type} (G : Nat) (hG : 1 ≤ G) (l : List α) (i : Nat) :
    strideSlice G (l.drop i) = (l.drop i).take 1 ++ strideSlice G ((l.drop G).drop i) := by
  cases h : l.drop i with
  | nil =>
    have hlen : l.length ≤ i := List.drop_eq_nil_iff.mp h
    have h2 : (l.drop G).drop i = [] := by
      rw [List.drop_drop]
      exact List.drop_eq_nil_of_le (by omega)
    rw [h2]
    rfl
  | cons x xs =>
    have hx : xs = l.drop (i + 1) := by
      have := congrArg List.tail h
      rw [List.tail_drop] at this
      exact this.symm
    rw [strideSlice_cons, hx, List.drop_drop, List.drop_drop]
    have he : i + 1 + (G - 1) = G + i := by omega
    rw [he]
    rfl

/-- Interleaving blocks: flattening pointwise-appended lists is a permutation
of appending the two flattenings. -/
theorem flatten_map_append_perm {α ι : Type} (r : List ι) (f h : ι → List α) :
    ((r.map (fun i => f i ++ h i)).flatten).Perm ((r.map f).flatten ++ (r.map h).flatten) := by
  induction r with
  | nil => exact List.Perm.refl _
  | cons a r ih =>
    simp only [List.map_cons, List.flatten_cons]
    refine List.Perm.trans (List.Perm.append_left (f a ++ h a) ih) ?_
    rw [List.append_assoc, List.append_assoc]
    exact List.Perm.append_left (f a) (List.perm_append_comm_assoc _ _ _)

theorem take_one_eq_head {α : Type} (m : List α) : m.take 1 = m.head?.toList := by
  cases m <;> rfl

/-- Collecting the heads of the suffixes at offsets `0, …, G-1` gives the first
`G` elements. -/
theorem flatten_take_one {α : Type} (G : Nat) (l : List α) :
    ((List.range G).map (fun i => (l.drop i).take 1)).flatten = l.take G := by
  induction G with
  | zero => rfl
  | succ G ih =>
    rw [List.range_succ, List.map_append, List.flatten_append, ih]
    simp only [List.map_cons, List.map_nil, List.flatten_cons, List.flatten_nil,
      List.append_nil]
    rw [take_one_eq_head, List.head?_drop, List.take_succ]

theorem flatten_map_nil {α ι : Type} (r : List ι) :
    ((r.map (fun _ => ([] : List α))).flatten) = [] := by
  induction r with
  | nil => rfl
  | cons a r ih => simp [ih]

/-- Dealing a list into `G ≥ 1` strided slices at offsets `0, …, G-1` loses and
duplicates nothing: the flattening of the slices is a permutation of the
list. -/
theorem deal_flatten_perm {α : Type} (G : Nat) (hG : 1 ≤ G) :
    ∀ (n : Nat) (l : List α), l.length ≤ n →
      (((List.range G).map (fun i => strideSlice G (l.drop i))).flatten).Perm l := by
  intro n
  induction n with
  | zero =>
    intro l h
    have hl : l = [] := List.length_eq_zero.mp (Nat.le_zero.mp h)
    subst hl
    have : ((List.range G).map (fun i => strideSlice G (([] : List α).drop i))) =
        (List.range G).map (fun _ => ([] : List α)) := by
      apply List.map_congr_left; intro i _; rw [List.drop_nil, strideSlice_nil]
    rw [this, flatten_map_nil]
  | succ n ih =>
    intro l h
    by_cases hl : l = []
    · subst hl
      have : ((List.range G).map (fun i => strideSlice G (([] : List α).drop i))) =
          (List.range G).map (fun _ => ([] : List α)) := by
        apply List.map_congr_left; intro i _; rw [List.drop_nil, strideSlice_nil]
      rw [this, flatten_map_nil]
    · have hrw : ((List.range G).map (fun i => strideSlice G (l.drop i))) =
          (List.range G).map (fun i => (l.drop i).take 1 ++ strideSlice G ((l.drop G).drop i)) :=
        List.map_congr_left (fun i _ => strideSlice_drop_decomp G hG l i)
      rw [hrw]
      refine List.Perm.trans (flatten_map_append_perm _ _ _) ?_
      have hmm : ((List.range G).map (fun i => (l.drop i).take 1)).flatten = l.take G :=
        flatten_take_one G l
      rw [hmm]
      have hd : (l.drop G).length ≤ n := by
        rw [List.length_drop]
        have hpos : 0 < l.length := List.length_pos.mpr hl
        omega
      refine List.Perm.trans (List.Perm.append_left (l.take G) (ih (l.drop G) hd)) ?_
      rw [List.take_append_drop]

/-- The slices assigned by `dealAux` with starting offset `i` are the strided
slices at offsets `i, …, i + number of groups - 1`. -/
theorem dealAux_map_snd {α γ : Type} (G : Nat) (l : List α) :
    ∀ (gs : List γ) (i : Nat),
      (dealAux G l gs i).map Prod.snd =
        (List.range' i gs.length).map (fun k => strideSlice G (l.drop k)) := by
  intro gs
  induction gs with
  | nil => intro i; rfl
  | cons g gs ih =>
    intro i
    simp only [dealAux, List.map_cons, List.length_cons, List.range'_succ]
    rw [ih]

theorem dealRound_map_snd {α γ : Type} (gs : List γ) (l : List α) :
    (dealRound gs l).map Prod.snd =
      (List.range gs.length).map (fun k => strideSlice gs.length (l.drop k)) := by
  rw [dealRound, dealAux_map_snd, List.range_eq_range']

/-- Coverage of round-robin dealing: for a non-empty group list, the multiset
union of the dealt allocation is a permutation of the dealt list. -/
theorem allocJoin_dealRound_perm {α γ : Type} (gs : List γ) (hG : 1 ≤ gs.length)
    (l : List α) : (allocJoin (dealRound gs l)).Perm l := by
  rw [allocJoin, dealRound_map_snd]
  exact deal_flatten_perm gs.length hG l.length l (Nat.le_refl _)

/-- Length of a strided slice: the ceiling of `length / G`. -/
theorem strideSlice_length {α : Type} (G : Nat) (hG : 1 ≤ G) :
    ∀ (n : Nat) (l : List α), l.length ≤ n →
      (strideSlice G l).length = (l.length + G - 1) / G := by
  intro n
  induction n with
  | zero =>
    intro l h
    have hl : l = [] := List.length_eq_zero.mp (Nat.le_zero.mp h)
    subst hl
    simp [Nat.div_eq_of_lt (show G - 1 < G by omega)]
  | succ n ih =>
    intro l h
    match l with
    | [] => simp [Nat.div_eq_of_lt (show G - 1 < G by omega)]
    | x :: xs =>
      rw [strideSlice_cons]
      simp only [List.length_cons] at h ⊢
      have hd : (xs.drop (G - 1)).length ≤ n := by
        rw [List.length_drop]; omega
      rw [ih _ hd, List.length_drop]
      rcases le_or_lt (G - 1) xs.length with hc | hc
      · have e1 : xs.length - (G - 1) + G - 1 = xs.length := by omega
        have e2 : xs.length + 1 + G - 1 = xs.length + G := by omega
        rw [e1, e2, Nat.add_div_right _ (by omega)]
      · have e1 : xs.length - (G - 1) = 0 := by omega
        have e2 : xs.length + 1 + G - 1 = xs.length + G := by omega
        rw [e1, e2, Nat.add_div_right _ (by omega),
          Nat.div_eq_of_lt (show 0 + G - 1 < G by omega),
          Nat.div_eq_of_lt (show xs.length < G by omega)]

/-- Ceiling sizes of round-robin dealing: the slice at offset `i < G` of a list
of length `N` has `N / G` elements, plus one exactly when `i < N % G`. -/
theorem ceil_sub_div (G N i : Nat) (hG : 0 < G) (hi : i < G) :
    (N - i + G - 1) / G = N / G + if i < N % G then 1 else 0 := by
  have hdm := Nat.div_add_mod N G
  have hmo := Nat.mod_lt N hG
  by_cases hir : i < N % G
  · have hmul : G * (N / G + 1) = G * (N / G) + G := by rw [Nat.mul_succ]
    have key : N - i + G - 1 = G * (N / G + 1) + (N % G - i - 1) := by omega
    have hz : (N % G - i - 1) / G = 0 := Nat.div_eq_of_lt (by omega)
    rw [key, Nat.mul_add_div hG, hz, if_pos hir]
  · by_cases hq : N / G = 0
    · rw [hq, Nat.mul_zero, Nat.zero_add] at hdm
      have hz : (N - i + G - 1) / G = 0 := Nat.div_eq_of_lt (by omega)
      rw [if_neg hir, hq, hz]
    · have hq1 : 1 ≤ N / G := Nat.pos_of_ne_zero hq
      have hGle : G ≤ G * (N / G) := Nat.le_mul_of_pos_right G hq1
      have key : N - i + G - 1 = G * (N / G) + (G - 1 - (i - N % G)) := by omega
      have hz : (G - 1 - (i - N % G)) / G = 0 := Nat.div_eq_of_lt (by omega)
      rw [key, Nat.mul_add_div hG, hz, if_neg hir]

/-- The exact per-group size list of a round-robin deal. -/
theorem dealRound_sizes {α γ : Type} (gs : List γ) (hG : 1 ≤ gs.length)
    (l : List α) :
    (dealRound gs l).map (fun e => e.2.length) =
      (List.range gs.length).map
        (fun i => l.length / gs.length + if i < l.length % gs.length then 1 else 0) := by
  have h1 : (dealRound gs l).map (fun e => e.2.length) =
      ((dealRound gs l).map Prod.snd).map List.length := by
    rw [List.map_map]; rfl
  rw [h1, dealRound_map_snd, List.map_map]
  apply List.map_congr_left
  intro i hi
  have hi' : i < gs.length := List.mem_range.mp hi
  show (strideSlice gs.length (l.drop i)).length = _
  rw [strideSlice_length gs.length hG (l.drop i).length (l.drop i) (Nat.le_refl _),
    List.length_drop]
  exact ceil_sub_div gs.length l.length i hG hi'

/-- Every entry of `dealAux` carries a strided slice at some offset in range. -/
theorem dealAux_mem {α γ : Type} (G : Nat) (l : List α) :
    ∀ (gs : List γ) (i : Nat) (e : γ × List α), e ∈ dealAux G l gs i →
      ∃ k, i ≤ k ∧ k < i + gs.length ∧ e.2 = strideSlice G (l.drop k) := by
  intro gs
  induction gs with
  | nil => intro i e h; exact absurd h (List.not_mem_nil e)
  | cons g gs ih =>
    intro i e h
    rcases List.mem_cons.mp h with h | h
    · exact ⟨i, Nat.le_refl _, by simp only [List.length_cons]; omega, by rw [h]⟩
    · obtain ⟨k, h1, h2, h3⟩ := ih (i + 1) e h
      exact ⟨k, by omega, by simp only [List.length_cons]; omega, h3⟩

/-- Балance of round-robin dealing: any two groups' sizes differ by at most
one. -/
theorem dealRound_balanced {α γ : Type} (gs : List γ) (hG : 1 ≤ gs.length)
    (l : List α) :
    ∀ e1 ∈ dealRound gs l, ∀ e2 ∈ dealRound gs l,
      e1.2.length ≤ e2.2.length + 1 := by
  intro e1 h1 e2 h2
  obtain ⟨k1, _, hk1, he1⟩ := dealAux_mem gs.length l gs 0 e1 h1
  obtain ⟨k2, _, hk2, he2⟩ := dealAux_mem gs.length l gs 0 e2 h2
  have l1 : e1.2.length = l.length / gs.length + if k1 < l.length % gs.length then 1 else 0 := by
    rw [he1, strideSlice_length gs.length hG (l.drop k1).length (l.drop k1) (Nat.le_refl _),
      List.length_drop]
    exact ceil_sub_div gs.length l.length k1 hG (by omega)
  have l2 : e2.2.length = l.length / gs.length + if k2 < l.length % gs.length then 1 else 0 := by
    rw [he2, strideSlice_length gs.length hG (l.drop k2).length (l.drop k2) (Nat.le_refl _),
      List.length_drop]
    exact ceil_sub_div gs.length l.length k2 hG (by omega)
  rw [l1, l2]
  split_ifs <;> omega

/-- Flattening respects elementwise permutation. -/
theorem flatten_perm_of_forall₂ {α : Type} {l1 l2 : List (List α)}
    (h : List.Forall₂ (fun a b => a.Perm b) l1 l2) :
    (l1.flatten).Perm l2.flatten := by
  induction h with
  | nil => exact List.Perm.refl _
  | cons hab _ ih => simpa using hab.append ih

/-- `shuffleEach` shuffles every block in place: the result is blockwise a
permutation of the input blocks. -/
theorem shuffleEach_forall₂ {α : Type} :
    ∀ (bs : List (List α)) (g : RNG),
      List.Forall₂ (fun a b => a.Perm b) (shuffleEach g bs).1 bs := by
  intro bs
  induction bs with
  | nil => intro g; exact List.Forall₂.nil
  | cons b bs ih => intro g; exact List.Forall₂.cons (shuffle_perm g b) (ih _)

theorem shuffleEach_flatten_perm {α : Type} (g : RNG) (bs : List (List α)) :
    ((shuffleEach g bs).1.flatten).Perm bs.flatten :=
  flatten_perm_of_forall₂ (shuffleEach_forall₂ bs g)


/-! ## Association-list updates and the minimization loop -/

/-- `extendGroup` preserves the key sequence. -/
theorem extendGroup_keys {α γ : Type} [DecidableEq γ] (g : γ) (ms : List α) :
    ∀ (a : List (γ × List α)), (extendGroup g ms a).map Prod.fst = a.map Prod.fst := by
  intro a
  induction a with
  | nil => rfl
  | cons e rest ih =>
    match e with
    | (g', l) =>
      by_cases hg : g' = g
      · simp [extendGroup, hg]
      · simp [extendGroup, hg, ih]

/-- Extending a present key appends the new members to the multiset union. -/
theorem allocJoin_extendGroup {α γ : Type} [DecidableEq γ] (g : γ) (ms : List α) :
    ∀ (a : List (γ × List α)), g ∈ a.map Prod.fst →
      (allocJoin (extendGroup g ms a)).Perm (allocJoin a ++ ms) := by
  intro a
  induction a with
  | nil => intro h; exact absurd h (List.not_mem_nil g)
  | cons e rest ih =>
    intro h
    match e with
    | (g', l) =>
      by_cases hg : g' = g
      · simp only [extendGroup, if_pos hg, allocJoin, List.map_cons, List.flatten_cons]
        rw [List.append_assoc, List.append_assoc]
        exact List.Perm.append_left l List.perm_append_comm
      · simp only [extendGroup, if_neg hg, allocJoin, List.map_cons, List.flatten_cons]
        have h' : g ∈ rest.map Prod.fst := by
          rcases List.mem_cons.mp h with h0 | h0
          · exact absurd h0.symm hg
          · exact h0
        rw [List.append_assoc]
        exact List.Perm.append_left l (ih h')


theorem countMatches_isSome {α β : Type} [DecidableEq β] (cov : α → Option β) (cv : β) :
    ∀ (l : List α), (∀ q ∈ l, (cov q).isSome) → ∃ n, countMatches cov cv l = some n := by
  intro l
  induction l with
  | nil => intro _; exact ⟨0, rfl⟩
  | cons a as ih =>
    intro h
    obtain ⟨v, hv⟩ := Option.isSome_iff_exists.mp (h a (List.mem_cons_self a as))
    obtain ⟨n, hn⟩ := ih (fun q hq => h q (List.mem_cons_of_mem a hq))
    exact ⟨(if v = cv then 1 else 0) + n, by simp [countMatches, hv, hn]⟩

theorem lookupD_mem {α κ : Type} [DecidableEq κ] (k : κ) :
    ∀ (a : List (κ × List α)) (q : α), q ∈ lookupD k a → ∃ e ∈ a, q ∈ e.2 := by
  intro a
  induction a with
  | nil => intro q hq; exact absurd hq (List.not_mem_nil q)
  | cons e rest ih =>
    intro q hq
    match e with
    | (k', v) =>
      by_cases hk : k' = k
      · simp only [lookupD, if_pos hk] at hq
        exact ⟨(k', v), List.mem_cons_self _ _, hq⟩
      · simp only [lookupD, if_neg hk] at hq
        obtain ⟨e', he', hq'⟩ := ih q hq
        exact ⟨e', List.mem_cons_of_mem _ he', hq'⟩

theorem imbalance_scores_some {α β γ : Type} [DecidableEq β] [DecidableEq γ]
    (cov : α → Option β) (cv : β) (acc : List (γ × List α))
    (hacc : ∀ e ∈ acc, ∀ q ∈ e.2, (cov q).isSome) :
    ∀ (gs : List γ), ∃ scored, imbalance_scores cov cv acc gs = some scored ∧
      scored.map Prod.fst = gs := by
  intro gs
  induction gs with
  | nil => exact ⟨[], rfl, rfl⟩
  | cons g gs ih =>
    obtain ⟨scored, hs, hk⟩ := ih
    have hq : ∀ q ∈ lookupD g acc, (cov q).isSome := by
      intro q hq
      obtain ⟨e, he, hqe⟩ := lookupD_mem g acc q hq
      exact hacc e he q hqe
    obtain ⟨n, hn⟩ := countMatches_isSome cov cv _ hq
    exact ⟨(g, n) :: scored, by simp [imbalance_scores, hn, hs], by simp [hk]⟩

theorem minByScore_mem {γ : Type} :
    ∀ (l : List (γ × Nat)) (b : γ × Nat), minByScore b l ∈ b :: l := by
  intro l
  induction l with
  | nil => intro b; exact List.mem_cons_self _ _
  | cons c cs ih =>
    intro b
    by_cases hc : c.2 < b.2
    · have heq : minByScore b (c :: cs) = minByScore c cs := by simp [minByScore, hc]
      rw [heq]
      have h := ih c
      simp only [List.mem_cons] at h ⊢
      tauto
    · have heq : minByScore b (c :: cs) = minByScore b cs := by simp [minByScore, hc]
      rw [heq]
      have h := ih b
      simp only [List.mem_cons] at h ⊢
      tauto

theorem extendGroup_mem_snd {α γ : Type} [DecidableEq γ] (g : γ) (ms : List α) :
    ∀ (a : List (γ × List α)) (e : γ × List α), e ∈ extendGroup g ms a →
      ∀ q ∈ e.2, (∃ e' ∈ a, q ∈ e'.2) ∨ q ∈ ms := by
  intro a
  induction a with
  | nil => intro e he; simp [extendGroup] at he
  | cons e0 rest ih =>
    intro e he q hq
    match e0 with
    | (g', l) =>
      by_cases hg : g' = g
      · simp only [extendGroup, if_pos hg] at he
        rcases List.mem_cons.mp he with h | h
        · subst h
          rcases List.mem_append.mp hq with h2 | h2
          · exact Or.inl ⟨(g', l), List.mem_cons_self _ _, h2⟩
          · exact Or.inr h2
        · exact Or.inl ⟨e, List.mem_cons_of_mem _ h, hq⟩
      · simp only [extendGroup, if_neg hg] at he
        rcases List.mem_cons.mp he with h | h
        · subst h
          exact Or.inl ⟨(g', l), List.mem_cons_self _ _, hq⟩
        · rcases ih e h q hq with h2 | h2
          · obtain ⟨e', he', hq'⟩ := h2
            exact Or.inl ⟨e', List.mem_cons_of_mem _ he', hq'⟩
          · exact Or.inr h2

/-- Main invariant of the minimization loop: with a group list that matches the
accumulator keys and covariate entries for every stored and processed
participant, the loop succeeds and the produced allocation holds exactly the
accumulated participants followed by the processed ones, as a multiset. -/
theorem minimizationAux_coverage {α β γ : Type} [DecidableEq β] [DecidableEq γ]
    (gs : List γ) (cov : α → Option β) (hgs : gs ≠ []) :
    ∀ (ps : List α) (acc : List (γ × List α)),
      acc.map Prod.fst = gs →
      (∀ e ∈ acc, ∀ q ∈ e.2, (cov q).isSome) →
      (∀ p ∈ ps, (cov p).isSome) →
      ∃ a, minimizationAux gs cov acc ps = some a ∧
        (allocJoin a).Perm (allocJoin acc ++ ps) ∧ a.map Prod.fst = gs := by
  intro ps
  induction ps with
  | nil =>
    intro acc hk hacc _
    exact ⟨acc, rfl, by simp, hk⟩
  | cons p ps ih =>
    intro acc hk hacc hps
    obtain ⟨cv, hcv⟩ := Option.isSome_iff_exists.mp (hps p (List.mem_cons_self _ _))
    obtain ⟨scored, hs, hsk⟩ := imbalance_scores_some cov cv acc hacc gs
    match scored, hs, hsk with
    | [], hs, hsk => exact absurd hsk.symm hgs
    | s0 :: srest, hs, hsk =>
      have hchosen : (minByScore s0 srest).1 ∈ gs := by
        have hmem := minByScore_mem srest s0
        have h2 : (minByScore s0 srest).1 ∈ (s0 :: srest).map Prod.fst :=
          List.mem_map_of_mem Prod.fst hmem
        rw [hsk] at h2
        exact h2
      have hstep : minimizationStep gs cov acc p =
          some (extendGroup (minByScore s0 srest).1 [p] acc) := by
        simp [minimizationStep, hcv, hs]
      have hk' : (extendGroup (minByScore s0 srest).1 [p] acc).map Prod.fst = gs := by
        rw [extendGroup_keys]; exact hk
      have hacc' : ∀ e ∈ extendGroup (minByScore s0 srest).1 [p] acc,
          ∀ q ∈ e.2, (cov q).isSome := by
        intro e he q hq
        rcases extendGroup_mem_snd _ [p] acc e he q hq with h2 | h2
        · obtain ⟨e', he', hq'⟩ := h2
          exact hacc e' he' q hq'
        · have : q = p := by simpa using h2
          rw [this, hcv]; rfl
      obtain ⟨a, ha, hperm, hak⟩ :=
        ih (extendGroup (minByScore s0 srest).1 [p] acc) hk' hacc'
          (fun q hq => hps q (List.mem_cons_of_mem _ hq))
      refine ⟨a, ?_, ?_, hak⟩
      · simp [minimizationAux, hstep, ha]
      · refine hperm.trans ?_
        have hin : (minByScore s0 srest).1 ∈ acc.map Prod.fst := by
          rw [hk]; exact hchosen
        have hx := allocJoin_extendGroup (minByScore s0 srest).1 [p] acc hin
        refine (hx.append_right ps).trans ?_
        rw [List.append_assoc]
        exact List.Perm.refl _

/-- Coverage of `minimization`: with a non-empty group list and an entry for
every stored participant, the call succeeds and assigns exactly the stored
participants. -/
theorem minimization_coverage {α β γ : Type} [DecidableEq β] [DecidableEq γ]
    (gs : List γ) (cov : α → Option β) (ps : List α) (hgs : gs ≠ [])
    (hps : ∀ p ∈ ps, (cov p).isSome) :
    ∃ a, minimization gs cov ps = some a ∧ (allocJoin a).Perm ps ∧
      a.map Prod.fst = gs := by
  have hk : ((gs.map (fun g => (g, ([] : List α)))).map Prod.fst) = gs := by
    rw [List.map_map]
    have hcomp : (Prod.fst ∘ fun g : γ => (g, ([] : List α))) = id := rfl
    rw [hcomp, List.map_id]
  have hacc : ∀ e ∈ gs.map (fun g => (g, ([] : List α))), ∀ q ∈ e.2, (cov q).isSome := by
    intro e he q hq
    obtain ⟨g, _, rfl⟩ := List.mem_map.mp he
    exact absurd hq (List.not_mem_nil q)
  obtain ⟨a, ha, hperm, hak⟩ := minimizationAux_coverage gs cov hgs ps _ hk hacc hps
  refine ⟨a, ha, ?_, hak⟩
  refine hperm.trans ?_
  have hnil : allocJoin (gs.map (fun g => (g, ([] : List α)))) = [] := by
    rw [allocJoin, List.map_map]
    have hcomp2 : (Prod.snd ∘ fun g : γ => (g, ([] : List α))) =
        (fun _ : γ => ([] : List α)) := rfl
    rw [hcomp2, flatten_map_nil]
  rw [hnil]
  exact List.Perm.refl _


/-! ## The selection rule: fold-based argmin equals first-minimum -/

theorem minScoreVal_cons {γ : Type} (b c : γ × Nat) (cs : List (γ × Nat)) :
    minScoreVal b (c :: cs) = minScoreVal (if c.2 < b.2 then c else b) cs := by
  simp only [minScoreVal, List.foldl_cons]
  congr 1
  by_cases hc : c.2 < b.2
  · simp [hc, Nat.min_def]
  · simp [hc, Nat.min_def]

theorem minScoreVal_le_head {γ : Type} :
    ∀ (l : List (γ × Nat)) (b : γ × Nat), minScoreVal b l ≤ b.2 := by
  intro l
  induction l with
  | nil => intro b; exact Nat.le_refl _
  | cons c cs ih =>
    intro b
    rw [minScoreVal_cons]
    refine Nat.le_trans (ih _) ?_
    by_cases hc : c.2 < b.2
    · rw [if_pos hc]; omega
    · rw [if_neg hc]

theorem find?_cons_pos' {δ : Type} (p : δ → Bool) (a : δ) (l : List δ)
    (h : p a = true) : (a :: l).find? p = some a := by
  rw [List.find?_cons, h]

theorem find?_cons_neg' {δ : Type} (p : δ → Bool) (a : δ) (l : List δ)
    (h : p a = false) : (a :: l).find? p = l.find? p := by
  rw [List.find?_cons, h]

/-- Python's left-fold `min` with first-wins tie-breaking returns exactly the
first element of the list attaining the minimum value. -/
theorem find?_minByScore {γ : Type} :
    ∀ (l : List (γ × Nat)) (b : γ × Nat),
      (b :: l).find? (fun c => c.2 == minScoreVal b l) = some (minByScore b l) := by
  intro l
  induction l with
  | nil =>
    intro b
    simp [minScoreVal, minByScore]
  | cons c cs ih =>
    intro b
    rw [minScoreVal_cons]
    by_cases hc : c.2 < b.2
    · rw [if_pos hc]
      have hM : minScoreVal c cs ≤ c.2 := minScoreVal_le_head cs c
      have hbf : (b.2 == minScoreVal c cs) = false := by
        rw [beq_eq_false_iff_ne]
        omega
      rw [find?_cons_neg' (fun x : γ × Nat => x.2 == minScoreVal c cs) b (c :: cs) hbf]
      have hmb : minByScore b (c :: cs) = minByScore c cs := by
        simp [minByScore, hc]
      rw [hmb]
      exact ih c
    · rw [if_neg hc]
      have hmb : minByScore b (c :: cs) = minByScore b cs := by
        simp [minByScore, hc]
      rw [hmb]
      by_cases hb : b.2 = minScoreVal b cs
      · have hbt : (b.2 == minScoreVal b cs) = true := by
          rw [beq_iff_eq]
          exact hb
        rw [find?_cons_pos' (fun x : γ × Nat => x.2 == minScoreVal b cs) b (c :: cs) hbt]
        have hR := ih b
        rw [find?_cons_pos' (fun x : γ × Nat => x.2 == minScoreVal b cs) b cs hbt] at hR
        exact hR
      · have hM : minScoreVal b cs ≤ b.2 := minScoreVal_le_head cs b
        have hbf : (b.2 == minScoreVal b cs) = false := by
          rw [beq_eq_false_iff_ne]
          exact hb
        have hcf : (c.2 == minScoreVal b cs) = false := by
          rw [beq_eq_false_iff_ne]
          omega
        rw [find?_cons_neg' (fun x : γ × Nat => x.2 == minScoreVal b cs) b (c :: cs) hbf,
          find?_cons_neg' (fun x : γ × Nat => x.2 == minScoreVal b cs) c cs hcf]
        have hR := ih b
        rw [find?_cons_neg' (fun x : γ × Nat => x.2 == minScoreVal b cs) b cs hbf] at hR
        exact hR

/-- The fold-based selection of the code equals the spec's first-minimum
selection, step by step. -/
theorem minimizationStep_eq_spec {α β γ : Type} [DecidableEq β] [DecidableEq γ]
    (gs : List γ) (cov : α → Option β) (acc : List (γ × List α)) (p : α) :
    minimizationStep gs cov acc p = specMinimizationStep gs cov acc p := by
  cases hcv : cov p with
  | none => simp [minimizationStep, specMinimizationStep, hcv]
  | some cv =>
    cases hs : imbalance_scores cov cv acc gs with
    | none => simp [minimizationStep, specMinimizationStep, hcv, hs]
    | some scored =>
      cases scored with
      | nil => simp [minimizationStep, specMinimizationStep, hcv, hs]
      | cons s0 srest =>
        simp [minimizationStep, specMinimizationStep, hcv, hs, specChoose,
          find?_minByScore]

theorem minimizationAux_eq_spec {α β γ : Type} [DecidableEq β] [DecidableEq γ]
    (gs : List γ) (cov : α → Option β) :
    ∀ (ps : List α) (acc : List (γ × List α)),
      minimizationAux gs cov acc ps = specMinimizationAux gs cov acc ps := by
  intro ps
  induction ps with
  | nil => intro acc; rfl
  | cons p ps ih =>
    intro acc
    simp only [minimizationAux, specMinimizationAux, minimizationStep_eq_spec]
    cases hstep : specMinimizationStep gs cov acc p with
    | none => rfl
    | some acc' => exact ih acc'

theorem covariateStep_eq_step {α β γ : Type} [DecidableEq β] [DecidableEq γ]
    (gs : List γ) (cov : α → Option β) (acc : List (γ × List α)) (p : α) :
    covariateStep gs cov acc p = minimizationStep gs cov acc p := rfl

theorem covariateAux_eq_aux {α β γ : Type} [DecidableEq β] [DecidableEq γ]
    (gs : List γ) (cov : α → Option β) :
    ∀ (ps : List α) (acc : List (γ × List α)),
      covariateAux gs cov acc ps = minimizationAux gs cov acc ps := by
  intro ps
  induction ps with
  | nil => intro acc; rfl
  | cons p ps ih =>
    intro acc
    simp only [covariateAux, minimizationAux, covariateStep_eq_step]
    cases hstep : minimizationStep gs cov acc p with
    | none => rfl
    | some acc' => exact ih acc'


/-! ## Remaining structural lemmas -/

theorem dealRound_nil {α γ : Type} (gs : List γ) :
    dealRound gs ([] : List α) = gs.map (fun g => (g, ([] : List α))) := by
  rw [dealRound]
  have key : ∀ (gs' : List γ) (i : Nat),
      dealAux gs.length ([] : List α) gs' i = gs'.map (fun g => (g, ([] : List α))) := by
    intro gs'
    induction gs' with
    | nil => intro i; rfl
    | cons g rest ih => intro i; simp [dealAux, ih]
  exact key gs 0

/-- With positive sizes, the first loop of `permuted_block_randomization`
succeeds and its accumulated blocks flatten to one full copy of the stored
participants per size. -/
theorem buildBlocks_flatten {α : Type} (ps : List α) :
    ∀ (sizes : List Int), (∀ s ∈ sizes, 1 ≤ s) →
      ∃ bs, buildBlocks ps sizes = some bs ∧
        bs.flatten = ((sizes.map (fun _ => ps)).flatten) := by
  intro sizes
  induction sizes with
  | nil => intro _; exact ⟨[], rfl, rfl⟩
  | cons s rest ih =>
    intro h
    have hs : 1 ≤ s := h s (List.mem_cons_self _ _)
    obtain ⟨bs, hb, hf⟩ := ih (fun x hx => h x (List.mem_cons_of_mem _ hx))
    refine ⟨chunks s.toNat ps ++ bs, ?_, ?_⟩
    · simp only [buildBlocks, hb]
      rw [if_neg (by omega), if_neg (by omega)]
    · rw [List.flatten_append, hf, List.map_cons, List.flatten_cons]
      congr 1
      exact chunks_flatten s.toNat (by omega) ps

theorem length_flatten_const {α : Type} (ps : List α) :
    ∀ (sizes : List Int),
      ((sizes.map (fun _ => ps)).flatten).length = sizes.length * ps.length := by
  intro sizes
  induction sizes with
  | nil => simp
  | cons s rest ih =>
    simp only [List.map_cons, List.flatten_cons, List.length_append, ih,
      List.length_cons]
    rw [Nat.succ_mul]
    omega

theorem count_flatten_const {α : Type} [DecidableEq α] (ps : List α) (p : α) :
    ∀ (sizes : List Int),
      ((sizes.map (fun _ => ps)).flatten).count p = sizes.length * ps.count p := by
  intro sizes
  induction sizes with
  | nil => simp
  | cons s rest ih =>
    simp only [List.map_cons, List.flatten_cons, List.count_append, ih,
      List.length_cons]
    rw [Nat.succ_mul]
    omega

/-- The strata as the caller sees them after `stratified_randomization`: same
keys in the same order, each member list shuffled in place. -/
theorem stratifiedAux_post {α γ σ : Type} [DecidableEq γ] (gs : List γ) :
    ∀ (strata : List (σ × List α)) (g : RNG) (acc : List (γ × List α)),
      List.Forall₂ (fun e e' : σ × List α => e.1 = e'.1 ∧ (e.2).Perm e'.2)
        ((stratifiedAux gs g strata acc).2.1) strata := by
  intro strata
  induction strata with
  | nil => intro g acc; exact List.Forall₂.nil
  | cons e rest ih =>
    intro g acc
    match e with
    | (s, members) =>
      exact List.Forall₂.cons ⟨rfl, shuffle_perm g members⟩ (ih _ _)

/-- Every strategy method except `simple_randomization` leaves the stored
participant list of the engine unchanged: the blocks it shuffles are sliced
copies, and stratified/cluster randomization shuffle caller-supplied or
freshly built lists. -/
theorem runMethod_participants_eq {α β γ σ κ : Type} [DecidableEq β]
    [DecidableEq γ] [DecidableEq κ] (m : Method) (hm : m ≠ Method.simple)
    (prm : Params α β γ σ κ) (st : Randomizations α γ) :
    (runMethod m prm st).2.participants = st.participants := by
  cases m with
  | simple => exact absurd rfl hm
  | block =>
    by_cases h0 : prm.block_size = 0
    · simp [runMethod, block_randomization, h0]
    · by_cases hneg : prm.block_size < 0
      · simp [runMethod, block_randomization, h0, hneg]
      · simp [runMethod, block_randomization, h0, hneg]
  | stratified => rfl
  | covariateAdaptive => rfl
  | permutedBlock =>
    cases hb : buildBlocks st.participants prm.block_sizes with
    | none => simp [runMethod, permuted_block_randomization, hb]
    | some bs => simp [runMethod, permuted_block_randomization, hb]
  | cluster => rfl
  | minimization => rfl

/-- Concrete parameter bundle used by witnesses. -/
def sampleParams : Params Nat Nat String String String :=
  ⟨2, [2, 3], [("s", [1, 2])], [("c1", [1, 2]), ("c2", [3, 4])], fun p => some (p % 2)⟩


/-! ## Claim theorems -/

/-- C1: for every engine built from a non-empty participant list and a group
list of size ≥ 2 (with unique names, per the construction contract), the
allocations returned by simple randomization, block randomization with
`block_size ≥ 1`, and minimization with every participant present in the
covariate map satisfy: the multiset union of all groups' assigned sequences
equals the multiset of the input participant list — no participant lost, none
duplicated. -/
theorem claim1_coverage {α β γ : Type} [DecidableEq β] [DecidableEq γ]
    (ps : List α) (gs : List γ) (_hps : ps ≠ []) (_hG2 : 2 ≤ gs.length)
    (_hnd : gs.Nodup) :
    (∀ g : RNG, (allocJoin (simple_randomization ⟨ps, gs, g⟩).1).Perm ps)
    ∧ (∀ (g : RNG) (bs : Int), 1 ≤ bs →
        ∃ a, (block_randomization bs ⟨ps, gs, g⟩).1 = some a ∧ (allocJoin a).Perm ps)
    ∧ (∀ cov : α → Option β, (∀ p ∈ ps, (cov p).isSome) →
        ∃ a, minimization gs cov ps = some a ∧ (allocJoin a).Perm ps) := by
  have hG1 : 1 ≤ gs.length := by omega
  refine ⟨?_, ?_, ?_⟩
  · intro g
    exact (allocJoin_dealRound_perm gs hG1 _).trans (shuffle_perm g ps)
  · intro g bs hbs
    have h0 : ¬ bs = 0 := by omega
    have hneg : ¬ bs < 0 := by omega
    refine ⟨dealRound gs ((shuffleEach g (chunks bs.toNat ps)).1.flatten), ?_, ?_⟩
    · simp [block_randomization, h0, hneg]
    · refine (allocJoin_dealRound_perm gs hG1 _).trans ?_
      refine (shuffleEach_flatten_perm g _).trans ?_
      rw [chunks_flatten bs.toNat (by omega) ps]
  · intro cov hcov
    have hne : gs ≠ [] := by
      intro h
      rw [h] at hG1
      simp at hG1
    obtain ⟨a, ha, hperm, _⟩ := minimization_coverage gs cov ps hne hcov
    exact ⟨a, ha, hperm⟩

/-- C1 witness: the coverage statement at a concrete engine
(participants 1‥3, groups T/C, seed 0, block size 2, covariates p mod 2). -/
theorem claim1_coverage_witness :
    (allocJoin (simple_randomization ⟨[1, 2, 3], ["T", "C"], ⟨0⟩⟩).1).Perm [1, 2, 3]
    ∧ (∃ a, (block_randomization 2 ⟨[1, 2, 3], ["T", "C"], ⟨0⟩⟩).1 = some a
        ∧ (allocJoin a).Perm [1, 2, 3])
    ∧ (∃ a, minimization ["T", "C"] (fun p : Nat => some (p % 2)) [1, 2, 3] = some a
        ∧ (allocJoin a).Perm [1, 2, 3]) := by
  obtain ⟨h1, h2, h3⟩ := @claim1_coverage Nat Nat String _ _ [1, 2, 3] ["T", "C"]
    (by decide) (by decide) (by decide)
  exact ⟨h1 ⟨0⟩, h2 ⟨0⟩ 2 (by decide), h3 (fun p => some (p % 2)) (by decide)⟩

/-- C2 counterexample: the claimed participant-level balance bound fails for
stratified randomization — with three singleton strata and two groups, the
first group receives 3 participants and the second 0. -/
theorem claim2_counterexample :
    ¬ (∀ e1 ∈ (stratified_randomization
          [("s1", [10]), ("s2", [20]), ("s3", [30])]
          ⟨[10, 20, 30], ["g1", "g2"], ⟨0⟩⟩).1,
        ∀ e2 ∈ (stratified_randomization
          [("s1", [10]), ("s2", [20]), ("s3", [30])]
          ⟨[10, 20, 30], ["g1", "g2"], ⟨0⟩⟩).1,
          e1.2.length ≤ e2.2.length + 1) := by
  decide

/-- C2 (amended): for simple, block and permuted-block randomization at
participant level, and for cluster randomization at cluster level (G ≥ 2
groups), any two group sizes differ by at most 1; moreover simple
randomization gives every group exactly `⌊N/G⌋` or `⌈N/G⌉` participants, with
precisely the first `N mod G` groups in declared order receiving the extra
one.  (The bound does not hold for stratified randomization at participant
level — see the counterexample.) -/
theorem claim2_balance_amended {α γ κ : Type} [DecidableEq κ]
    (ps : List α) (gs : List γ) (hG : 2 ≤ gs.length) :
    (∀ g : RNG, (simple_randomization ⟨ps, gs, g⟩).1.map (fun e => e.2.length) =
      (List.range gs.length).map
        (fun i => ps.length / gs.length + if i < ps.length % gs.length then 1 else 0))
    ∧ (∀ (g : RNG) (bs : Int) (a : List (γ × List α)),
        (block_randomization bs ⟨ps, gs, g⟩).1 = some a →
        ∀ e1 ∈ a, ∀ e2 ∈ a, e1.2.length ≤ e2.2.length + 1)
    ∧ (∀ (g : RNG) (sizes : List Int) (a : List (γ × List α)),
        (permuted_block_randomization sizes ⟨ps, gs, g⟩).1 = some a →
        ∀ e1 ∈ a, ∀ e2 ∈ a, e1.2.length ≤ e2.2.length + 1)
    ∧ (∀ (g : RNG) (clusters : List (κ × List α)),
        ∀ e1 ∈ dealRound gs (shuffle g (clusters.map Prod.fst)).1,
        ∀ e2 ∈ dealRound gs (shuffle g (clusters.map Prod.fst)).1,
          e1.2.length ≤ e2.2.length + 1) := by
  have hG1 : 1 ≤ gs.length := by omega
  refine ⟨?_, ?_, ?_, ?_⟩
  · intro g
    show (dealRound gs (shuffle g ps).1).map (fun e => e.2.length) = _
    rw [dealRound_sizes gs hG1, shuffle_length]
  · intro g bs a ha e1 h1 e2 h2
    by_cases h0 : bs = 0
    · simp [block_randomization, h0] at ha
    · by_cases hneg : bs < 0
      · simp only [block_randomization, if_neg h0, if_pos hneg, Option.some.injEq] at ha
        subst ha
        exact dealRound_balanced gs hG1 _ e1 h1 e2 h2
      · simp only [block_randomization, if_neg h0, if_neg hneg, Option.some.injEq] at ha
        subst ha
        exact dealRound_balanced gs hG1 _ e1 h1 e2 h2
  · intro g sizes a ha e1 h1 e2 h2
    cases hb : buildBlocks ps sizes with
    | none => simp [permuted_block_randomization, hb] at ha
    | some bs =>
      simp only [permuted_block_randomization, hb, Option.some.injEq] at ha
      subst ha
      exact dealRound_balanced gs hG1 _ e1 h1 e2 h2
  · intro g clusters e1 h1 e2 h2
    exact dealRound_balanced gs hG1 _ e1 h1 e2 h2

/-- C2 witness: the amended balance statement at a concrete engine
(5 participants, 2 groups: sizes (3, 2), blocks and clusters balanced). -/
theorem claim2_balance_amended_witness :
    (simple_randomization ⟨[1, 2, 3, 4, 5], ["T", "C"], ⟨0⟩⟩).1.map
        (fun e => e.2.length) =
      (List.range (["T", "C"] : List String).length).map
        (fun i => ([1, 2, 3, 4, 5] : List Nat).length / (["T", "C"] : List String).length +
          if i < ([1, 2, 3, 4, 5] : List Nat).length % (["T", "C"] : List String).length
          then 1 else 0) := by
  exact (@claim2_balance_amended Nat String String _ [1, 2, 3, 4, 5] ["T", "C"]
    (by decide)).1 ⟨0⟩


/-- C3: determinism — two engines constructed with equal participant lists,
equal group lists and the same seed return identical allocation sequences when
invoked with the same sequence of strategy calls: each run's draws are a pure
function of the seeded source state. -/
theorem claim3_determinism {α β γ σ κ : Type} [DecidableEq β] [DecidableEq γ]
    [DecidableEq κ] (ps1 ps2 : List α) (gs1 gs2 : List γ) (seed : Nat)
    (calls : List (Method × Params α β γ σ κ))
    (hps : ps1 = ps2) (hgs : gs1 = gs2) :
    runCalls ⟨ps1, gs1, set_random_seed seed⟩ calls =
      runCalls ⟨ps2, gs2, set_random_seed seed⟩ calls := by
  subst hps
  subst hgs
  rfl

/-- C3 witness: two identically constructed engines agree on a concrete
two-call sequence. -/
theorem claim3_determinism_witness :
    runCalls ⟨[1, 2, 3, 4], ["T", "C"], set_random_seed 42⟩
        [(Method.simple, sampleParams), (Method.block, sampleParams)] =
      runCalls ⟨[1, 2, 3, 4], ["T", "C"], set_random_seed 42⟩
        [(Method.simple, sampleParams), (Method.block, sampleParams)] :=
  claim3_determinism [1, 2, 3, 4] [1, 2, 3, 4] ["T", "C"] ["T", "C"] 42
    [(Method.simple, sampleParams), (Method.block, sampleParams)] rfl rfl

/-- C4: `covariate_adaptive_randomization` and `minimization` are
extensionally equal — the same allocation for every engine state and covariate
map (in particular for maps defined on all stored participants). -/
theorem claim4_alias_equiv {α β γ : Type} [DecidableEq β] [DecidableEq γ]
    (gs : List γ) (cov : α → Option β) (ps : List α) :
    covariate_adaptive_randomization gs cov ps = minimization gs cov ps :=
  covariateAux_eq_aux gs cov ps _

/-- C5: minimization processes participants one at a time in stored order and
assigns each to the group whose count of equal-covariate assignments is
minimal, first group in declared order winning ties: the implementation equals
the spec-worded algorithm `specMinimization`. -/
theorem claim5_minimization_spec {α β γ : Type} [DecidableEq β] [DecidableEq γ]
    (gs : List γ) (cov : α → Option β) (ps : List α) :
    minimization gs cov ps = specMinimization gs cov ps :=
  minimizationAux_eq_spec gs cov ps _


/-- C6 counterexample: with an empty group list `simple_randomization` does
not fail — it returns an empty allocation (the dictionary comprehension over
no groups), silently dropping the stored participant, so neither "fails with
ConfigurationError" nor "returns a complete allocation" holds. -/
theorem claim6_counterexample :
    (runMethod Method.simple sampleParams ⟨[1], ([] : List String), ⟨0⟩⟩).1 =
      some []
    ∧ ¬ (allocJoin ([] : List (String × List Nat))).Perm [1] := by
  constructor
  · decide
  · decide

/-- C6 (amended): `simple_randomization` never raises: with an empty group
list it returns an empty allocation, dropping all participants; with a
non-empty group list it returns a complete allocation covering the stored
participants (no partial result). -/
theorem claim6_amended {α β γ σ κ : Type} [DecidableEq β] [DecidableEq γ]
    [DecidableEq κ] (prm : Params α β γ σ κ) (st : Randomizations α γ) :
    (runMethod Method.simple prm st).1.isSome = true
    ∧ (st.groups = [] → (runMethod Method.simple prm st).1 = some [])
    ∧ (st.groups ≠ [] →
        ∃ a, (runMethod Method.simple prm st).1 = some a ∧
          (allocJoin a).Perm st.participants) := by
  refine ⟨rfl, ?_, ?_⟩
  · intro h
    show some (dealRound st.groups (shuffle st.gen st.participants).1) = some []
    rw [h]
    rfl
  · intro h
    refine ⟨dealRound st.groups (shuffle st.gen st.participants).1, rfl, ?_⟩
    refine (allocJoin_dealRound_perm st.groups ?_ _).trans (shuffle_perm _ _)
    have := List.length_pos.mpr h
    omega

/-- C6 witness: the amended statement instantiated at a concrete engine with
two groups. -/
theorem claim6_amended_witness :
    ∃ a, (runMethod Method.simple sampleParams ⟨[1, 2], ["T", "C"], ⟨0⟩⟩).1 = some a
      ∧ (allocJoin a).Perm [1, 2] :=
  (claim6_amended sampleParams ⟨[1, 2], ["T", "C"], ⟨0⟩⟩).2.2 (by decide)

/-- C7 counterexample: `block_randomization(-1)` does not fail with any error —
it returns an allocation with every group empty (the Python `range` with a
negative step is empty), contradicting "fails with ConfigurationError for
every block_size < 1". -/
theorem claim7_counterexample :
    (block_randomization (-1) ⟨[1, 2, 3], ["T", "C"], ⟨0⟩⟩).1 ≠ none
    ∧ (block_randomization (-1) ⟨[1, 2, 3], ["T", "C"], ⟨0⟩⟩).1 =
        some [("T", []), ("C", [])] := by
  constructor
  · decide
  · decide

/-- C7 (amended): `block_randomization` raises only for `block_size = 0`
(Python `range` with step 0, a `ValueError`, not a `ConfigurationError`); for
negative sizes it silently returns an allocation with every group empty; for
`block_size ≥ 1` it partitions the stored participant sequence into
consecutive blocks of that size (final block possibly shorter), shuffles each
block independently, concatenates them in original block order, and deals
round-robin into the groups. -/
theorem claim7_amended {α γ : Type} (bs : Int) (st : Randomizations α γ) :
    (bs = 0 → (block_randomization bs st).1 = none)
    ∧ (bs < 0 → (block_randomization bs st).1 =
        some (st.groups.map (fun g => (g, ([] : List α)))))
    ∧ (1 ≤ bs →
        ∃ sh : List (List α),
          List.Forall₂ (fun a b : List α => a.Perm b) sh
            (chunks bs.toNat st.participants)
          ∧ (chunks bs.toNat st.participants).flatten = st.participants
          ∧ (block_randomization bs st).1 = some (dealRound st.groups sh.flatten)) := by
  refine ⟨?_, ?_, ?_⟩
  · intro h
    simp [block_randomization, h]
  · intro h
    have h0 : ¬ bs = 0 := by omega
    simp [block_randomization, h0, h, dealRound_nil]
  · intro h
    have h0 : ¬ bs = 0 := by omega
    have hneg : ¬ bs < 0 := by omega
    refine ⟨(shuffleEach st.gen (chunks bs.toNat st.participants)).1,
      shuffleEach_forall₂ _ _, chunks_flatten _ (by omega) _, ?_⟩
    simp [block_randomization, h0, hneg]

/-- C7 witness: the amended statement at block size 2 on a concrete engine. -/
theorem claim7_amended_witness :
    ∃ sh : List (List Nat),
      List.Forall₂ (fun a b : List Nat => a.Perm b) sh
        (chunks (Int.toNat 2) [1, 2, 3])
      ∧ (chunks (Int.toNat 2) [1, 2, 3]).flatten = [1, 2, 3]
      ∧ (block_randomization 2 ⟨[1, 2, 3], ["T", "C"], ⟨0⟩⟩).1 =
          some (dealRound ["T", "C"] sh.flatten) :=
  (claim7_amended 2 ⟨[1, 2, 3], ["T", "C"], ⟨0⟩⟩).2.2 (by decide)

/-- C8 counterexample: the claim fails for block size lists that are not all
positive — `[0]` raises (Python `range` step 0), producing no allocation at
all, and `[-1]` returns an allocation with 0 ≠ 1·2 total assignments. -/
theorem claim8_counterexample :
    (permuted_block_randomization [0] ⟨[1, 2], ["T", "C"], ⟨0⟩⟩).1 = none
    ∧ (permuted_block_randomization [-1] ⟨[1, 2], ["T", "C"], ⟨0⟩⟩).1.map
        (fun a => (allocJoin a).length) = some 0 := by
  constructor
  · decide
  · decide

/-- C8 (amended): for every engine with ≥ 2 groups and every non-empty list of
positive block sizes of length k, `permuted_block_randomization` builds one
full partition of all N stored participants per size, so the total number of
assigned participants is k·N; each participant value is assigned k times per
occurrence in the stored list, hence exactly k times when the identifiers are
distinct. -/
theorem claim8_amended {α γ : Type} [DecidableEq α] (ps : List α) (gs : List γ)
    (hG : 2 ≤ gs.length) (sizes : List Int) (_hk : sizes ≠ [])
    (hpos : ∀ s ∈ sizes, 1 ≤ s) (g : RNG) :
    ∃ a, (permuted_block_randomization sizes ⟨ps, gs, g⟩).1 = some a
      ∧ (allocJoin a).length = sizes.length * ps.length
      ∧ (∀ p ∈ ps, (allocJoin a).count p = sizes.length * ps.count p)
      ∧ (ps.Nodup → ∀ p ∈ ps, (allocJoin a).count p = sizes.length) := by
  have hG1 : 1 ≤ gs.length := by omega
  obtain ⟨bs, hb, hf⟩ := buildBlocks_flatten ps sizes hpos
  refine ⟨dealRound gs ((shuffleEach g bs).1.flatten), ?_, ?_, ?_, ?_⟩
  · show (permuted_block_randomization sizes ⟨ps, gs, g⟩).1 = _
    simp [permuted_block_randomization, hb]
  all_goals
    have hperm : (allocJoin (dealRound gs ((shuffleEach g bs).1.flatten))).Perm
        ((sizes.map (fun _ => ps)).flatten) := by
      refine (allocJoin_dealRound_perm gs hG1 _).trans ?_
      refine (shuffleEach_flatten_perm g bs).trans ?_
      rw [hf]
  · rw [hperm.length_eq, length_flatten_const]
  · intro p _
    rw [hperm.count_eq, count_flatten_const]
  · intro hnd p hp
    rw [hperm.count_eq, count_flatten_const, List.count_eq_one_of_mem hnd hp,
      Nat.mul_one]

/-- C8 witness: block sizes [2, 3] on 4 participants assign 2·4 participants
in total, each one twice. -/
theorem claim8_amended_witness :
    ∃ a, (permuted_block_randomization [2, 3] ⟨[1, 2, 3, 4], ["T", "C"], ⟨0⟩⟩).1 =
        some a
      ∧ (allocJoin a).length =
          ([2, 3] : List Int).length * ([1, 2, 3, 4] : List Nat).length
      ∧ (∀ p ∈ [1, 2, 3, 4],
          (allocJoin a).count p = ([2, 3] : List Int).length * ([1, 2, 3, 4] : List Nat).count p)
      ∧ (([1, 2, 3, 4] : List Nat).Nodup → ∀ p ∈ [1, 2, 3, 4],
          (allocJoin a).count p = ([2, 3] : List Int).length) :=
  @claim8_amended Nat String _ [1, 2, 3, 4] ["T", "C"] (by decide) [2, 3]
    (by decide) (by decide) ⟨0⟩


/-- The strategy method `m` mutates the engine's stored participant list for
some parameters and engine state (identifiers and labels instantiated as in
the running example: natural-number participants, string labels). -/
def MutatesStored (m : Method) : Prop :=
  ∃ (prm : Params Nat Nat String String String) (st : Randomizations Nat String),
    (runMethod m prm st).2.participants ≠ st.participants

/-- C9 counterexample: it is not the case that several (more than one)
strategy methods shuffle the stored participant list in place — every method
other than `simple_randomization` always leaves it unchanged. -/
theorem claim9_counterexample :
    ¬ ∃ m1 m2 : Method, m1 ≠ m2 ∧ MutatesStored m1 ∧ MutatesStored m2 := by
  rintro ⟨m1, m2, hne, h1, h2⟩
  have key : ∀ m : Method, MutatesStored m → m = Method.simple := by
    intro m hm
    by_contra hne'
    obtain ⟨prm, st, hmut⟩ := hm
    exact hmut (runMethod_participants_eq m hne' prm st)
  exact hne ((key m1 h1).trans (key m2 h2).symm)

/-- C9 (amended): exactly one strategy method — `simple_randomization` —
shuffles the engine's stored participant list in place as a side effect
visible to subsequent calls; every other method (block, stratified,
covariate-adaptive, permuted-block, cluster, minimization) leaves the stored
list unchanged, because the blocks it shuffles are sliced copies and the
stratified/cluster shuffles act on caller-supplied or freshly built lists. -/
theorem claim9_amended :
    MutatesStored Method.simple
    ∧ ∀ {α β γ σ κ : Type} [DecidableEq β] [DecidableEq γ] [DecidableEq κ]
        (m : Method), m ≠ Method.simple →
        ∀ (prm : Params α β γ σ κ) (st : Randomizations α γ),
          (runMethod m prm st).2.participants = st.participants := by
  constructor
  · refine ⟨sampleParams, ⟨[1, 2], ["T"], ⟨0⟩⟩, ?_⟩
    decide
  · intro α β γ σ κ _ _ _ m hm prm st
    exact runMethod_participants_eq m hm prm st

/-- C9 witness: block randomization on a concrete engine leaves the stored
participant list unchanged. -/
theorem claim9_amended_witness :
    (runMethod Method.block sampleParams ⟨[1, 2, 3], ["T", "C"], ⟨0⟩⟩).2.participants =
      [1, 2, 3] :=
  claim9_amended.2 Method.block (by decide) sampleParams ⟨[1, 2, 3], ["T", "C"], ⟨0⟩⟩

/-- C10: `stratified_randomization` shuffles each stratum member list of the
caller-supplied strata mapping in place: after the call the strata have the
same keys in the same order and every member list holds the same elements as
before, but possibly reordered — and on a concrete input the order really does
change, so the caller's argument is mutated. -/
theorem claim10_strata_mutation :
    (∀ {α γ σ : Type} [DecidableEq γ] (strata : List (σ × List α))
        (st : Randomizations α γ),
        List.Forall₂ (fun e e' : σ × List α => e.1 = e'.1 ∧ (e.2).Perm e'.2)
          ((stratified_randomization strata st).2.1) strata)
    ∧ ∃ (strata : List (String × List Nat)) (st : Randomizations Nat String),
        (stratified_randomization strata st).2.1 ≠ strata := by
  constructor
  · intro α γ σ _ strata st
    exact stratifiedAux_post st.groups strata st.gen _
  · refine ⟨[("s", [1, 2])], ⟨[1, 2], ["T", "C"], ⟨0⟩⟩, ?_⟩
    decide

end Causality
